import Mathlib

/-!
Verification development for the DeepSeek-V3 decoder-layer compute core
(modular_deepseek_v3.py): the MoE gate (MoEGate.forward), the expert
dispatch engine (DeepseekV3MoE.moe_infer / forward), the decoupled rotary
applier (apply_rotary_pos_emb) and the latent-attention tensor assembly
(DeepseekV3Attention).

Tensors are embedded row-wise: a token or channel vector is a `List ℚ`
(exact rationals replace floating point), batched operations become maps
over rows, and per-expert feed-forward transforms are abstracted as
functions, since the dispatch and gating logic treats them as black boxes.
The elementwise sigmoid is abstracted as a parameter of the gate.
-/

namespace DeepseekV3

/-! ## Rotary applier (source lines 45-75) -/

/-- Embeds `rotate_half(x)`: `x1 = x[..., : d // 2]`, `x2 = x[..., d // 2 :]`,
returning `cat(-x2, x1)` on one channel vector. -/
def rotate_half (x : List ℚ) : List ℚ :=
  (x.drop (x.length / 2)).map (fun a => -a) ++ x.take (x.length / 2)

/-- Even-position channels of a vector (channels 0, 2, 4, ...). -/
def pairEvens : List ℚ → List ℚ
  | [] => []
  | [a] => [a]
  | a :: _ :: r => a :: pairEvens r

/-- Odd-position channels of a vector (channels 1, 3, 5, ...). -/
def pairOdds : List ℚ → List ℚ
  | [] => []
  | [_] => []
  | _ :: b :: r => b :: pairOdds r

/-- Embeds `x.view(b, h, s, d // 2, 2).transpose(4, 3).reshape(b, h, s, d)` on one
channel vector: the last dimension is reshaped into adjacent pairs, the pair axis is
transposed and flattened back, so even channels come first, then odd channels. -/
def interleavePairs (x : List ℚ) : List ℚ := pairEvens x ++ pairOdds x

/-- Embeds the rotation stage `(x * cos) + (rotate_half(x) * sin)` with elementwise
multiplication and addition on one channel vector. -/
def rotEmbed (cos sin x : List ℚ) : List ℚ :=
  List.zipWith (· + ·) (List.zipWith (· * ·) x cos)
    (List.zipWith (· * ·) (rotate_half x) sin)

/-- Embeds `apply_rotary_pos_emb(q, k, cos, sin)` on one (head, position) slice pair:
both inputs are pair-interleaved, then the rotate-half rotation stage is applied. -/
def apply_rotary_pos_emb (q k cos sin : List ℚ) : List ℚ × List ℚ :=
  (rotEmbed cos sin (interleavePairs q), rotEmbed cos sin (interleavePairs k))

/-! ## MoE gate (MoEGate.forward, source lines 95-136) -/

/-- The configuration fields consumed by `MoEGate`. -/
structure GateConfig where
  n_routed_experts : ℕ
  n_group : ℕ
  topk_group : ℕ
  top_k : ℕ
  norm_topk_prob : Bool
  routed_scaling_factor : ℚ

/-- Number of experts per group, `n_routed_experts // n_group`. -/
def groupSize (cfg : GateConfig) : ℕ := cfg.n_routed_experts / cfg.n_group

/-- Dot product of two rows. -/
def dotQ (a b : List ℚ) : ℚ := (List.zipWith (· * ·) a b).sum

/-- Embeds `logits = F.linear(hidden_states.float(), self.weight.float())` for one
token row; exact rationals stand in for float32. -/
def gateLogits (weight : List (List ℚ)) (hidden : List ℚ) : List ℚ :=
  weight.map (fun w => dotQ w hidden)

/-- Embeds `scores = logits.sigmoid()`; the elementwise sigmoid is abstracted as the
parameter `sigm`. -/
def gateScores (sigm : ℚ → ℚ) (weight : List (List ℚ)) (hidden : List ℚ) : List ℚ :=
  (gateLogits weight hidden).map sigm

/-- Embeds `scores_for_choice = scores + e_score_correction_bias` for one token row. -/
def scoresForChoice (sigm : ℚ → ℚ) (weight : List (List ℚ)) (bias hidden : List ℚ) :
    List ℚ :=
  List.zipWith (· + ·) (gateScores sigm weight hidden) bias

/-- The comparison used to select top-k positions of a row: position `i` precedes
position `j` when it holds the strictly larger value, or an equal value with `i ≤ j`. -/
def topkLe (v : List ℚ) (i j : ℕ) : Bool :=
  decide (v.getD j 0 < v.getD i 0 ∨ (v.getD i 0 = v.getD j 0 ∧ i ≤ j))

/-- Embeds `torch.topk(v, k, sorted=False).indices` for one row: the `k` positions
holding the largest values, ties resolved toward the smaller position (a stable
selection, matching the implementation-defined tie order). -/
def topkIdx (v : List ℚ) (k : ℕ) : List ℕ :=
  (List.insertionSort (fun i j => topkLe v i j = true) (List.range v.length)).take k

/-- The contiguous slice of expert scores belonging to group `g` (`gs` experts per
group), as produced by `view(-1, n_group, n_routed_experts // n_group)`. -/
def groupSlice (s : List ℚ) (gs g : ℕ) : List ℚ := (s.drop (g * gs)).take gs

/-- Embeds `group_scores = scores_for_choice.view(-1, n_group, gs).topk(2)[0].sum(-1)`:
per group, the sum of its top-2 bias-adjusted scores. -/
def groupScores (sfc : List ℚ) (nGroup gs : ℕ) : List ℚ :=
  (List.range nGroup).map (fun g =>
    ((topkIdx (groupSlice sfc gs g) 2).map (fun i => (groupSlice sfc gs g).getD i 0)).sum)

/-- Embeds `group_idx = torch.topk(group_scores, k=topk_group, sorted=False)[1]`. -/
def gateGroupIdx (sigm : ℚ → ℚ) (weight : List (List ℚ)) (bias hidden : List ℚ)
    (cfg : GateConfig) : List ℕ :=
  topkIdx (groupScores (scoresForChoice sigm weight bias hidden) cfg.n_group (groupSize cfg))
    cfg.topk_group

/-- Embeds the group mask expansion and `scores_for_choice.masked_fill(~mask, 0.0)`:
expert `e` lies in group `e / gs`, and the bias-adjusted score of every expert outside
the selected groups is replaced by `0.0`. -/
def maskedScores (sfc : List ℚ) (G : List ℕ) (gs E : ℕ) : List ℚ :=
  (List.range E).map (fun e => if e / gs ∈ G then sfc.getD e 0 else 0)

/-- The masked bias-adjusted scores computed by the gate for one token row. -/
def gateMaskedScores (sigm : ℚ → ℚ) (weight : List (List ℚ)) (bias hidden : List ℚ)
    (cfg : GateConfig) : List ℚ :=
  maskedScores (scoresForChoice sigm weight bias hidden)
    (gateGroupIdx sigm weight bias hidden cfg) (groupSize cfg) cfg.n_routed_experts

/-- Embeds `_, topk_indices = torch.topk(scores_for_choice, k=top_k, sorted=False)`
for one token row, on the masked scores. -/
def gateTopkIndices (sigm : ℚ → ℚ) (weight : List (List ℚ)) (bias hidden : List ℚ)
    (cfg : GateConfig) : List ℕ :=
  topkIdx (gateMaskedScores sigm weight bias hidden cfg) cfg.top_k

/-- Embeds `topk_weights = scores.gather(1, topk_indices)`: the original sigmoid
scores (not the bias-adjusted ones) gathered at the selected indices. -/
def rawTopkWeights (sigm : ℚ → ℚ) (weight : List (List ℚ)) (bias hidden : List ℚ)
    (cfg : GateConfig) : List ℚ :=
  (gateTopkIndices sigm weight bias hidden cfg).map
    (fun i => (gateScores sigm weight hidden).getD i 0)

/-- The epsilon `1e-20` added to the normalizing denominator. -/
def moeGateEps : ℚ := 1 / 10 ^ 20

/-- Embeds `MoEGate.forward` for one token row: the selected indices together with
the final weights (normalized when `norm_topk_prob`, then multiplied by
`routed_scaling_factor`). -/
def MoEGate_forward (sigm : ℚ → ℚ) (weight : List (List ℚ)) (bias hidden : List ℚ)
    (cfg : GateConfig) : List ℕ × List ℚ :=
  let raw := rawTopkWeights sigm weight bias hidden cfg
  let w := if cfg.norm_topk_prob then raw.map (fun x => x / (raw.sum + moeGateEps)) else raw
  (gateTopkIndices sigm weight bias hidden cfg, w.map (fun x => x * cfg.routed_scaling_factor))

/-! ## Expert dispatch (DeepseekV3MoE.moe_infer / forward, source lines 139-217)

Token vectors live in an abstract additive monoid `V` with a `ℚ` scalar action;
each routed expert and the shared expert are abstract row transforms `V → V`,
matching how `moe_infer` treats `self.experts` as black boxes. -/

variable {V : Type} [AddCommMonoid V] [SMul ℚ V]

/-- The comparison sorting flat positions by ascending key value, equal keys kept in
ascending position order. -/
def argsortLe (keys : List ℕ) (i j : ℕ) : Bool :=
  decide (keys.getD i 0 < keys.getD j 0 ∨ (keys.getD i 0 = keys.getD j 0 ∧ i ≤ j))

/-- Embeds `topk_indices.view(-1).argsort()`: the flat positions sorted by ascending
key value, positions with equal keys kept in ascending order (a stable sorting
permutation of `range keys.length`; see `argsortKeys_perm`). -/
def argsortKeys (keys : List ℕ) : List ℕ :=
  List.insertionSort (fun i j => argsortLe keys i j = true) (List.range keys.length)

/-- The flat positions whose key equals `e`, in ascending order. -/
def groupPos (keys : List ℕ) (e : ℕ) : List ℕ :=
  (List.range keys.length).filter (fun i => keys.getD i 0 == e)

/-- Embeds `sorted_indices = topk_indices.view(-1).argsort()`. -/
def sortedIndices (idx : List (List ℕ)) : List ℕ := argsortKeys idx.flatten

/-- Embeds `sorted_tokens = hidden_states[sorted_indices // num_topk]`. -/
def sortedTokens (tokens : List V) (k : ℕ) (idx : List (List ℕ)) : List V :=
  (sortedIndices idx).map (fun i => tokens.getD (i / k) 0)

/-- Embeds `tokens_per_expert`: zeros scattered with ones at each token row's selected
experts (`scatter_(1, topk_indices, 1)`, so a row contributes at most 1 per expert),
then summed over token rows. -/
def tokensPerExpert (idx : List (List ℕ)) (e : ℕ) : ℕ :=
  idx.countP (fun row => decide (e ∈ row))

/-- Embeds the per-expert loop of `moe_infer`: walk the experts in index order with a
running position `pos` into the sorted token list, skip experts counted zero tokens,
and apply each remaining expert to its contiguous batch, concatenating the results. -/
def expertCat (experts : ℕ → V → V) (counts : ℕ → ℕ) (st : List V) :
    List ℕ → ℕ → List V
  | [], _ => []
  | e :: rest, pos =>
    if counts e = 0 then expertCat experts counts st rest pos
    else ((st.drop pos).take (counts e)).map (experts e) ++
      expertCat experts counts st rest (pos + counts e)

/-- Embeds `expert_outputs = torch.cat(expert_outputs, dim=0)` built by the loop over
`enumerate(tokens_per_expert)`. -/
def expertOutputs (experts : ℕ → V → V) (E k : ℕ) (tokens : List V)
    (idx : List (List ℕ)) : List V :=
  expertCat experts (tokensPerExpert idx) (sortedTokens tokens k idx) (List.range E) 0

/-- Embeds `reordered_outputs[sorted_indices] = expert_outputs`: entry `i` receives
the concatenated output whose sorted position maps back to flat position `i` (the
inverse of the sort permutation). -/
def reorderedOutputs (experts : ℕ → V → V) (E k : ℕ) (tokens : List V)
    (idx : List (List ℕ)) : List V :=
  (List.range idx.flatten.length).map (fun i =>
    (expertOutputs experts E k tokens idx).getD ((sortedIndices idx).indexOf i) 0)

/-- Embeds `moe_infer`: reshape the reordered outputs to `[tokens, top_k, hidden]` and
contract against the token's weight row (`matmul(topk_weights.unsqueeze(1), ·)` followed
by `sum(dim=1)`); the dtype casts are identities over exact rationals. -/
def moe_infer (experts : ℕ → V → V) (E k : ℕ) (tokens : List V)
    (idx : List (List ℕ)) (w : List (List ℚ)) : List V :=
  (List.range idx.length).map (fun t =>
    ∑ s ∈ Finset.range k,
      (w.getD t []).getD s 0 • (reorderedOutputs experts E k tokens idx).getD (t * k + s) 0)

/-- Embeds `DeepseekV3MoE.forward`: `y = moe_infer(hidden, idx, w) + shared_experts(identity)`,
the shared expert being applied to every token's original hidden state. -/
def DeepseekV3MoE_forward (experts : ℕ → V → V) (shared : V → V) (E k : ℕ)
    (tokens : List V) (idx : List (List ℕ)) (w : List (List ℚ)) : List V :=
  List.zipWith (· + ·) (moe_infer experts E k tokens idx w) (tokens.map shared)

/-! ## Latent attention assembly (DeepseekV3Attention.forward, source lines 282-304,
332-335)

The low-rank projections themselves (`q_a_proj`, `q_a_layernorm`, `q_b_proj`,
`kv_a_proj_with_mqa`, `kv_a_layernorm`, `kv_b_proj`) are `nn.Linear` and
`LlamaRMSNorm` calls living outside this file's source; their outputs enter the
embedding as given per-head and per-position vectors. -/

/-- Embeds building `query_states` (lines 295-297): a fresh buffer whose first
`qk_nope_head_dim` channels receive `q_nope` and whose remaining channels receive the
rotated `q_pe`; the two slice writes are disjoint and exhaustive, i.e. concatenation.
`q` is the full per-head query vector before the `torch.split`, `kpe` the single-head
positional key slice fed jointly to `apply_rotary_pos_emb`. -/
def query_states (cos sin q kpe : List ℚ) (nope : ℕ) : List ℚ :=
  q.take nope ++ (apply_rotary_pos_emb (q.drop nope) kpe cos sin).1

/-- Embeds building `key_states` (lines 299-301): the first `qk_nope_head_dim`
channels receive `k_nope = kv[..., : nope]` for this head, the remaining channels
receive the rotated single-head `k_pe = compressed_kv[..., kv_lora_rank :]`, broadcast
across heads. -/
def key_states (cos sin q kv ckv : List ℚ) (nope kvLora : ℕ) : List ℚ :=
  kv.take nope ++ (apply_rotary_pos_emb (q.drop nope) (ckv.drop kvLora) cos sin).2

/-- Embeds `value_states = kv[..., nope :]` for one head. -/
def value_states (kv : List ℚ) (nope : ℕ) : List ℚ := kv.drop nope

/-- Embeds `F.pad(value_states, [0, q_head_dim - v_head_dim])` on one value row. -/
def pad_value_states (v : List ℚ) (qdim : ℕ) : List ℚ :=
  v ++ List.replicate (qdim - v.length) 0

/-- Embeds `attn_output[:, :, :, : v_head_dim]`, the truncation after the kernel call
on the flash-attention path. -/
def truncate_attn_output (row : List ℚ) (vdim : ℕ) : List ℚ := row.take vdim

/-- Modelled from the spec: the pluggable attention-score kernel
(`eager_attention_forward` and its fused alternatives live outside this source file).
Per §6, the kernel maps `(query, key, value, mask, dropout, scaling)` to an output
whose rows are combinations of the value rows under the attention weights; `p j` is
the weight this output row places on value row `j`, and `d` the head dimension of the
value rows it consumes. -/
def attnCombineRow (p : ℕ → ℚ) (values : List (List ℚ)) (d : ℕ) : List ℚ :=
  (List.range d).map (fun c =>
    ∑ j ∈ Finset.range values.length, p j * (values.getD j []).getD c 0)

/-! ## Attention scaling (yarn_get_mscale, source lines 39-42 and 261-267) -/

/-- The `rope_scaling` configuration dictionary entries consumed by the attention
module: `factor` (mandatory) and `mscale_all_dim` (read with default 0). -/
structure RopeScaling where
  factor : ℚ
  mscale_all_dim : Option ℚ

/-- Embeds `yarn_get_mscale(scale, mscale)`: 1.0 when `scale <= 1`, otherwise
`0.1 * mscale * math.log(scale) + 1.0`. -/
noncomputable def yarn_get_mscale (scale mscale : ℚ) : ℝ :=
  if scale ≤ 1 then 1 else 0.1 * (mscale : ℝ) * Real.log (scale : ℝ) + 1

/-- Embeds the `scaling` computation of `DeepseekV3Attention.__init__`:
`q_head_dim ** (-0.5)`, multiplied by `mscale * mscale` when `rope_scaling` is set and
its `mscale_all_dim` entry is truthy (nonzero). -/
noncomputable def attnScaling (q_head_dim : ℕ) (rope_scaling : Option RopeScaling) : ℝ :=
  let base : ℝ := (q_head_dim : ℝ) ^ (-(0.5) : ℝ)
  match rope_scaling with
  | none => base
  | some rs =>
    if rs.mscale_all_dim.getD 0 ≠ 0 then
      base * yarn_get_mscale rs.factor (rs.mscale_all_dim.getD 0) *
        yarn_get_mscale rs.factor (rs.mscale_all_dim.getD 0)
    else base

/-! ## Properties of the top-k index selection -/

theorem topkLe_trans (v : List ℚ) (a b c : ℕ) (hab : topkLe v a b = true)
    (hbc : topkLe v b c = true) : topkLe v a c = true := by
  simp only [topkLe, decide_eq_true_eq] at hab hbc ⊢
  rcases hab with h1 | ⟨h1, h1'⟩ <;> rcases hbc with h2 | ⟨h2, h2'⟩
  · exact Or.inl (h2.trans h1)
  · exact Or.inl (by rw [← h2]; exact h1)
  · exact Or.inl (by rw [h1]; exact h2)
  · exact Or.inr ⟨h1.trans h2, h1'.trans h2'⟩

theorem topkLe_total (v : List ℚ) (a b : ℕ) : (topkLe v a b || topkLe v b a) = true := by
  simp only [topkLe, Bool.or_eq_true, decide_eq_true_eq]
  rcases lt_trichotomy (v.getD a 0) (v.getD b 0) with h | h | h
  · exact Or.inr (Or.inl h)
  · rcases le_total a b with hab | hab
    · exact Or.inl (Or.inr ⟨h, hab⟩)
    · exact Or.inr (Or.inr ⟨h.symm, hab⟩)
  · exact Or.inl (Or.inl h)

theorem topk_sorted (v : List ℚ) :
    List.Pairwise (fun i j => topkLe v i j = true)
      (List.insertionSort (fun i j => topkLe v i j = true) (List.range v.length)) := by
  letI : IsTotal ℕ (fun i j => topkLe v i j = true) :=
    ⟨fun a b => Bool.or_eq_true_iff.mp (topkLe_total v a b)⟩
  letI : IsTrans ℕ (fun i j => topkLe v i j = true) := ⟨topkLe_trans v⟩
  exact List.sorted_insertionSort _ _

theorem topkIdx_length (v : List ℚ) (k : ℕ) (hk : k ≤ v.length) :
    (topkIdx v k).length = k := by
  have hp := (List.perm_insertionSort (fun i j => topkLe v i j = true)
    (List.range v.length)).length_eq
  simp only [topkIdx, List.length_take, hp, List.length_range]
  omega

theorem topkIdx_nodup (v : List ℚ) (k : ℕ) : (topkIdx v k).Nodup :=
  (List.take_sublist _ _).nodup
    ((List.perm_insertionSort (fun i j => topkLe v i j = true)
      (List.range v.length)).symm.nodup (List.nodup_range _))

theorem topkIdx_mem_lt (v : List ℚ) (k : ℕ) {i : ℕ} (hi : i ∈ topkIdx v k) :
    i < v.length := by
  have h1 : i ∈ List.insertionSort (fun i j => topkLe v i j = true) (List.range v.length) :=
    List.take_subset _ _ hi
  exact List.mem_range.mp ((List.perm_insertionSort _ _).mem_iff.mp h1)

/-- If at least `k` positions of the row hold a strictly positive value, then every
position selected by the top-k holds a strictly positive value. -/
theorem topkIdx_pos (v : List ℚ) (k : ℕ)
    (hcard : k ≤ ((Finset.range v.length).filter (fun j => 0 < v.getD j 0)).card) :
    ∀ i ∈ topkIdx v k, 0 < v.getD i 0 := by
  intro i hi
  by_contra hle
  push_neg at hle
  simp only [topkIdx] at hi
  set L := List.insertionSort (fun i j => topkLe v i j = true) (List.range v.length)
    with hLdef
  obtain ⟨m, hm, hmi⟩ := List.mem_iff_getElem.mp hi
  have hmk : m < k := lt_of_lt_of_le hm (by rw [List.length_take]; omega)
  have hmL : m < L.length := by
    have h := hm; rw [List.length_take] at h; omega
  have hLmi : L[m] = i := by
    rw [List.getElem_take] at hmi; exact hmi
  set P := (Finset.range v.length).filter (fun j => 0 < v.getD j 0) with hPdef
  have hmem : ∀ j ∈ P, j ∈ L := by
    intro j hj
    have hj2 := Finset.mem_filter.mp hj
    exact (List.perm_insertionSort _ _).mem_iff.mpr
      (List.mem_range.mpr (Finset.mem_range.mp hj2.1))
  have hidx : ∀ j ∈ P, L.indexOf j < m := by
    intro j hj
    have hjP := Finset.mem_filter.mp hj
    have hjL := hmem j hj
    have hjlt : L.indexOf j < L.length := List.indexOf_lt_length.mpr hjL
    have hLj : L[L.indexOf j] = j := List.getElem_indexOf hjlt
    rcases lt_trichotomy (L.indexOf j) m with h | h | h
    · exact h
    · exfalso
      simp only [h] at hLj
      have hij : i = j := hLmi.symm.trans hLj
      rw [← hij] at hjP
      exact absurd hjP.2 (not_lt.mpr hle)
    · exfalso
      have hpw := (List.pairwise_iff_getElem.mp (topk_sorted v)) m (L.indexOf j) hmL hjlt h
      simp only [← hLdef] at hpw
      simp only [hLmi, hLj] at hpw
      simp only [topkLe, decide_eq_true_eq] at hpw
      rcases hpw with hlt | ⟨heq, _⟩
      · exact absurd hjP.2 (not_lt.mpr (le_of_lt (lt_of_lt_of_le hlt hle)))
      · exact absurd hjP.2 (not_lt.mpr (heq ▸ hle))
  have hinj : Set.InjOn (fun j => L.indexOf j) ↑P := by
    intro a ha b hb hab
    have haL := hmem a (Finset.mem_coe.mp ha)
    have hbL := hmem b (Finset.mem_coe.mp hb)
    have hlt1 : L.indexOf a < L.length := List.indexOf_lt_length.mpr haL
    have hlt2 : L.indexOf b < L.length := List.indexOf_lt_length.mpr hbL
    have h1 : L[L.indexOf a] = a := List.getElem_indexOf hlt1
    have h2 : L[L.indexOf b] = b := List.getElem_indexOf hlt2
    simp only at hab
    simp only [hab] at h1
    exact h1.symm.trans h2
  have hcard2 : P.card ≤ (Finset.range m).card :=
    Finset.card_le_card_of_injOn _ (fun j hj => Finset.mem_range.mpr (hidx j hj)) hinj
  rw [Finset.card_range] at hcard2
  omega

/-! ## Properties of the dispatch argsort -/

theorem argsortLe_trans (keys : List ℕ) (a b c : ℕ) (hab : argsortLe keys a b = true)
    (hbc : argsortLe keys b c = true) : argsortLe keys a c = true := by
  simp only [argsortLe, decide_eq_true_eq] at hab hbc ⊢
  omega

theorem argsortLe_total (keys : List ℕ) (a b : ℕ) :
    (argsortLe keys a b || argsortLe keys b a) = true := by
  simp only [argsortLe, Bool.or_eq_true, decide_eq_true_eq]
  omega

theorem argsort_sorted (keys : List ℕ) :
    List.Pairwise (fun i j => argsortLe keys i j = true) (argsortKeys keys) := by
  letI : IsTotal ℕ (fun i j => argsortLe keys i j = true) :=
    ⟨fun a b => Bool.or_eq_true_iff.mp (argsortLe_total keys a b)⟩
  letI : IsTrans ℕ (fun i j => argsortLe keys i j = true) := ⟨argsortLe_trans keys⟩
  exact List.sorted_insertionSort _ _

theorem argsortKeys_perm (keys : List ℕ) :
    (argsortKeys keys).Perm (List.range keys.length) :=
  List.perm_insertionSort _ _

theorem flatMap_groupPos_perm (keys : List ℕ) (B : ℕ) :
    ((List.range B).flatMap (groupPos keys)).Perm
      ((List.range keys.length).filter (fun i => decide (keys.getD i 0 < B))) := by
  induction B with
  | zero =>
    have h0 : (List.range keys.length).filter (fun i => decide (keys.getD i 0 < 0)) = [] := by
      simp
    rw [List.range_zero, List.flatMap_nil, h0]
  | succ B ih =>
    rw [List.range_succ, List.flatMap_append]
    have hBend : [B].flatMap (groupPos keys) = groupPos keys B := by
      simp
    rw [hBend]
    have e1 : ∀ i ∈ List.range keys.length,
        ((fun i => decide (keys.getD i 0 < B)) i && decide (keys.getD i 0 < B + 1))
          = decide (keys.getD i 0 < B) := by
      intro i _
      show (decide (keys.getD i 0 < B) && decide (keys.getD i 0 < B + 1))
        = decide (keys.getD i 0 < B)
      by_cases h : keys.getD i 0 < B
      · rw [decide_eq_true h, decide_eq_true (show keys.getD i 0 < B + 1 by omega)]
        rfl
      · rw [decide_eq_false h]
        exact Bool.false_and _
    have e2 : ∀ i ∈ List.range keys.length,
        ((fun i => !decide (keys.getD i 0 < B)) i && decide (keys.getD i 0 < B + 1))
          = (keys.getD i 0 == B) := by
      intro i _
      show (!decide (keys.getD i 0 < B) && decide (keys.getD i 0 < B + 1))
        = (keys.getD i 0 == B)
      by_cases h : keys.getD i 0 = B
      · rw [decide_eq_false (show ¬keys.getD i 0 < B by omega),
          decide_eq_true (show keys.getD i 0 < B + 1 by omega), h, beq_self_eq_true]
        rfl
      · have hne : (keys.getD i 0 == B) = false := beq_eq_false_iff_ne.mpr h
        rw [hne]
        by_cases h2 : keys.getD i 0 < B
        · rw [decide_eq_true h2]
          rfl
        · rw [decide_eq_false (show ¬keys.getD i 0 < B + 1 by omega)]
          exact Bool.and_false _
    have hsplit := List.filter_append_perm (fun i => decide (keys.getD i 0 < B))
      ((List.range keys.length).filter (fun i => decide (keys.getD i 0 < B + 1)))
    rw [List.filter_filter, List.filter_filter, List.filter_congr e1, List.filter_congr e2]
      at hsplit
    exact (ih.append_right (groupPos keys B)).trans hsplit

theorem flatMap_groupPos_sorted (keys : List ℕ) (B : ℕ) :
    List.Pairwise (fun i j => argsortLe keys i j = true)
      ((List.range B).flatMap (groupPos keys)) := by
  have hflat : (List.range B).flatMap (groupPos keys)
      = ((List.range B).map (groupPos keys)).flatten := rfl
  rw [hflat, List.pairwise_flatten]
  constructor
  · intro l hl
    obtain ⟨e, _, rfl⟩ := List.mem_map.mp hl
    have h1 : List.Pairwise (· < ·) (groupPos keys e) :=
      (List.pairwise_lt_range _).filter _
    refine List.Pairwise.imp_of_mem ?_ h1
    intro a b ha hb hab
    have hae : keys.getD a 0 = e := by
      have := List.of_mem_filter ha
      simpa using this
    have hbe : keys.getD b 0 = e := by
      have := List.of_mem_filter hb
      simpa using this
    simp only [argsortLe]
    exact decide_eq_true (Or.inr ⟨hae.trans hbe.symm, le_of_lt hab⟩)
  · rw [List.pairwise_map]
    refine List.Pairwise.imp ?_ (List.pairwise_lt_range B)
    intro e1 e2 he x hx y hy
    have hxe : keys.getD x 0 = e1 := by
      have := List.of_mem_filter hx
      simpa using this
    have hye : keys.getD y 0 = e2 := by
      have := List.of_mem_filter hy
      simpa using this
    simp only [argsortLe]
    exact decide_eq_true (Or.inl (by rw [hxe, hye]; exact he))

/-- When every key is below `B`, the argsort is exactly the positions grouped by key
value in ascending order, equal keys in ascending position order. -/
theorem argsortKeys_eq_flatMap (keys : List ℕ) (B : ℕ) (hB : ∀ x ∈ keys, x < B) :
    argsortKeys keys = (List.range B).flatMap (groupPos keys) := by
  have hfe : (List.range keys.length).filter (fun i => decide (keys.getD i 0 < B))
      = List.range keys.length := by
    rw [List.filter_eq_self]
    intro i hi
    have hil : i < keys.length := List.mem_range.mp hi
    have hm : keys.getD i 0 ∈ keys := by
      rw [List.getD_eq_getElem _ _ hil]
      exact List.getElem_mem _
    exact decide_eq_true (hB _ hm)
  have h1 : ((List.range B).flatMap (groupPos keys)).Perm (List.range keys.length) := by
    have h2 := flatMap_groupPos_perm keys B
    rwa [hfe] at h2
  letI : IsAntisymm ℕ (fun i j => argsortLe keys i j = true) := ⟨by
    intro a b hab hba
    simp only [argsortLe, decide_eq_true_eq] at hab hba
    omega⟩
  exact List.eq_of_perm_of_sorted ((argsortKeys_perm keys).trans h1.symm)
    (argsort_sorted keys) (flatMap_groupPos_sorted keys B)

/-! ## Token counting -/

theorem length_groupPos (keys : List ℕ) (e : ℕ) :
    (groupPos keys e).length = keys.count e := by
  induction keys using List.reverseRecOn with
  | nil => simp [groupPos]
  | append_singleton l a ih =>
    have hlen : (l ++ [a]).length = l.length + 1 := by simp
    have e1 : ∀ i ∈ List.range l.length,
        ((l ++ [a]).getD i 0 == e) = (l.getD i 0 == e) := by
      intro i hi
      rw [List.getD_append _ _ _ _ (List.mem_range.mp hi)]
    have e2 : (l ++ [a]).getD l.length 0 = a := by
      rw [List.getD_append_right _ _ _ _ (le_refl _), Nat.sub_self]
      rfl
    simp only [groupPos] at ih
    simp only [groupPos, hlen, List.range_succ, List.filter_append, List.length_append,
      List.filter_congr e1, ih, List.count_append, List.filter_singleton, e2]
    by_cases h : a = e
    · subst h
      rw [beq_self_eq_true]
      simp [List.count_cons]
    · rw [beq_eq_false_iff_ne.mpr h]
      simp [List.count_cons, beq_eq_false_iff_ne.mpr h]

theorem tokensPerExpert_eq_count (idx : List (List ℕ)) (hnd : ∀ r ∈ idx, r.Nodup)
    (e : ℕ) : tokensPerExpert idx e = idx.flatten.count e := by
  induction idx with
  | nil => rfl
  | cons r rest ih =>
    have hr : r.Nodup := hnd r (List.mem_cons_self _ _)
    have hrest := ih (fun r2 h2 => hnd r2 (List.mem_cons_of_mem _ h2))
    simp only [tokensPerExpert, List.countP_cons, List.flatten_cons, List.count_append]
    simp only [tokensPerExpert] at hrest
    rw [hrest]
    by_cases h : e ∈ r
    · rw [List.count_eq_one_of_mem hr h, if_pos (decide_eq_true h)]
      omega
    · rw [List.count_eq_zero_of_not_mem h, if_neg (by simp [h])]
      omega

/-! ## The per-expert loop -/

theorem expertCat_flatMap (experts : ℕ → V → V) (counts : ℕ → ℕ) (g : ℕ → List V) :
    ∀ (es : List ℕ) (pre : List V), (∀ e ∈ es, counts e = (g e).length) →
      expertCat experts counts (pre ++ es.flatMap g) es pre.length
        = es.flatMap (fun e => (g e).map (experts e)) := by
  intro es
  induction es with
  | nil => intro pre _; rfl
  | cons e rest ih =>
    intro pre hc
    have h0 := hc e (List.mem_cons_self _ _)
    have hcr : ∀ x ∈ rest, counts x = (g x).length :=
      fun x hx => hc x (List.mem_cons_of_mem _ hx)
    by_cases hz : counts e = 0
    · have hge : g e = [] := List.length_eq_zero.mp (by rw [← h0]; exact hz)
      have hst : pre ++ (e :: rest).flatMap g = pre ++ rest.flatMap g := by
        rw [List.flatMap_cons, hge, List.nil_append]
      simp only [expertCat, hz, if_true, hst, List.flatMap_cons, hge, List.nil_append]
      exact ih pre hcr
    · have hassoc : pre ++ (e :: rest).flatMap g = (pre ++ g e) ++ rest.flatMap g := by
        rw [List.flatMap_cons, List.append_assoc]
      simp only [expertCat, if_neg hz, hassoc]
      have hdrop : ((pre ++ g e) ++ rest.flatMap g).drop pre.length
          = g e ++ rest.flatMap g := by
        rw [List.append_assoc, List.drop_left]
      have htake : (g e ++ rest.flatMap g).take (counts e) = g e := by
        rw [h0, List.take_left]
      rw [hdrop, htake]
      have hpos : pre.length + counts e = (pre ++ g e).length := by
        rw [List.length_append, h0]
      rw [hpos, ih (pre ++ g e) hcr, List.flatMap_cons]

theorem expertOutputs_eq (experts : ℕ → V → V) (E k : ℕ) (tokens : List V)
    (idx : List (List ℕ)) (hnd : ∀ r ∈ idx, r.Nodup)
    (hB : ∀ i ∈ idx.flatten, i < E) :
    expertOutputs experts E k tokens idx
      = (sortedIndices idx).map
          (fun i => experts (idx.flatten.getD i 0) (tokens.getD (i / k) 0)) := by
  have hsi : sortedIndices idx = (List.range E).flatMap (groupPos idx.flatten) :=
    argsortKeys_eq_flatMap idx.flatten E hB
  have hst : sortedTokens tokens k idx
      = (List.range E).flatMap
          (fun e => (groupPos idx.flatten e).map (fun i => tokens.getD (i / k) 0)) := by
    rw [sortedTokens, hsi, List.map_flatMap]
  have hcounts : ∀ e ∈ List.range E, tokensPerExpert idx e
      = ((groupPos idx.flatten e).map (fun i => tokens.getD (i / k) 0)).length := by
    intro e _
    rw [List.length_map, length_groupPos, tokensPerExpert_eq_count idx hnd]
  have h1 := expertCat_flatMap experts (tokensPerExpert idx)
    (fun e => (groupPos idx.flatten e).map (fun i => tokens.getD (i / k) 0))
    (List.range E) [] hcounts
  simp only [List.nil_append, List.length_nil] at h1
  have h2 : expertOutputs experts E k tokens idx
      = (List.range E).flatMap
          (fun e => ((groupPos idx.flatten e).map
            (fun i => tokens.getD (i / k) 0)).map (experts e)) := by
    rw [expertOutputs, hst]
    exact h1
  rw [h2, hsi, List.map_flatMap]
  show ((List.range E).map _).flatten = ((List.range E).map _).flatten
  congr 1
  refine List.map_congr_left ?_
  intro e _
  rw [List.map_map]
  refine List.map_congr_left ?_
  intro i hi
  have hie : idx.flatten.getD i 0 = e := by
    have := List.of_mem_filter hi
    simpa using this
  show (experts e ∘ fun i => tokens.getD (i / k) 0) i
    = experts (idx.flatten.getD i 0) (tokens.getD (i / k) 0)
  rw [Function.comp_apply, hie]

theorem reorderedOutputs_apply (experts : ℕ → V → V) (E k : ℕ) (tokens : List V)
    (idx : List (List ℕ)) (hnd : ∀ r ∈ idx, r.Nodup)
    (hB : ∀ i ∈ idx.flatten, i < E) :
    ∀ i, i < idx.flatten.length →
      (reorderedOutputs experts E k tokens idx).getD i 0
        = experts (idx.flatten.getD i 0) (tokens.getD (i / k) 0) := by
  intro i hi
  have hiL : i ∈ sortedIndices idx :=
    (argsortKeys_perm idx.flatten).mem_iff.mpr (List.mem_range.mpr hi)
  have hidxlt : (sortedIndices idx).indexOf i < (sortedIndices idx).length :=
    List.indexOf_lt_length.mpr hiL
  have hgetidx : (sortedIndices idx)[(sortedIndices idx).indexOf i] = i :=
    List.getElem_indexOf hidxlt
  have hlen : i < ((List.range idx.flatten.length).map (fun j =>
      (expertOutputs experts E k tokens idx).getD ((sortedIndices idx).indexOf j) 0)).length := by
    simpa using hi
  rw [reorderedOutputs, List.getD_eq_getElem _ _ hlen, List.getElem_map]
  simp only [List.getElem_range]
  rw [expertOutputs_eq experts E k tokens idx hnd hB]
  have hlen2 : (sortedIndices idx).indexOf i < ((sortedIndices idx).map
      (fun j => experts (idx.flatten.getD j 0) (tokens.getD (j / k) 0))).length := by
    simpa using hidxlt
  rw [List.getD_eq_getElem _ _ hlen2, List.getElem_map]
  simp only [hgetidx]

/-! ## Flattening index arithmetic -/

theorem flatten_length_uniform (idx : List (List ℕ)) (k : ℕ)
    (h : ∀ r ∈ idx, r.length = k) : idx.flatten.length = idx.length * k := by
  induction idx with
  | nil => simp
  | cons r rest ih =>
    simp only [List.flatten_cons, List.length_append, List.length_cons]
    rw [h r (List.mem_cons_self _ _), ih (fun x hx => h x (List.mem_cons_of_mem _ hx))]
    ring

theorem flatten_getD_uniform (idx : List (List ℕ)) (k : ℕ)
    (h : ∀ r ∈ idx, r.length = k) :
    ∀ t s, t < idx.length → s < k →
      idx.flatten.getD (t * k + s) 0 = (idx.getD t []).getD s 0 := by
  induction idx with
  | nil => intro t s ht _; simp at ht
  | cons r rest ih =>
    intro t s ht hs
    cases t with
    | zero =>
      simp only [List.flatten_cons, Nat.zero_mul, Nat.zero_add, List.getD_cons_zero]
      exact List.getD_append _ _ _ _ (by rw [h r (List.mem_cons_self _ _)]; exact hs)
    | succ u =>
      simp only [List.flatten_cons, List.getD_cons_succ]
      have hrl : r.length = k := h r (List.mem_cons_self _ _)
      have hge : r.length ≤ (u + 1) * k + s := by
        rw [hrl, Nat.succ_mul]
        omega
      rw [List.getD_append_right _ _ _ _ hge]
      have harith : (u + 1) * k + s - r.length = u * k + s := by
        rw [hrl, Nat.succ_mul]
        omega
      rw [harith]
      have hu : u < rest.length := by
        simp only [List.length_cons] at ht
        omega
      exact ih (fun x hx => h x (List.mem_cons_of_mem _ hx)) u s hu hs

theorem moe_infer_apply (experts : ℕ → V → V) (E k : ℕ) (tokens : List V)
    (idx : List (List ℕ)) (w : List (List ℚ)) (hk : 0 < k)
    (hRows : ∀ r ∈ idx, r.length = k) (hnd : ∀ r ∈ idx, r.Nodup)
    (hB : ∀ i ∈ idx.flatten, i < E) :
    ∀ t, t < idx.length →
      (moe_infer experts E k tokens idx w).getD t 0
        = ∑ s ∈ Finset.range k,
            (w.getD t []).getD s 0 • experts ((idx.getD t []).getD s 0) (tokens.getD t 0) := by
  intro t ht
  have hlen : t < ((List.range idx.length).map (fun u =>
      ∑ s ∈ Finset.range k, (w.getD u []).getD s 0 •
        (reorderedOutputs experts E k tokens idx).getD (u * k + s) 0)).length := by
    simpa using ht
  rw [moe_infer, List.getD_eq_getElem _ _ hlen, List.getElem_map]
  simp only [List.getElem_range]
  refine Finset.sum_congr rfl ?_
  intro s hs
  have hs2 : s < k := Finset.mem_range.mp hs
  have hlt : t * k + s < idx.flatten.length := by
    rw [flatten_length_uniform idx k hRows]
    have h1 : t * k + s < (t + 1) * k := by
      rw [Nat.succ_mul]
      omega
    exact lt_of_lt_of_le h1 (Nat.mul_le_mul_right _ ht)
  rw [reorderedOutputs_apply experts E k tokens idx hnd hB _ hlt,
    flatten_getD_uniform idx k hRows t s ht hs2]
  have hdiv : (t * k + s) / k = t := by
    rw [mul_comm, Nat.mul_add_div hk, Nat.div_eq_of_lt hs2, Nat.add_zero]
  rw [hdiv]

/-! ## Rotary round-trip algebra -/

theorem length_pairEvens : ∀ x : List ℚ, (pairEvens x).length = (x.length + 1) / 2
  | [] => rfl
  | [_] => by simp [pairEvens]
  | _ :: _ :: r => by
    simp only [pairEvens, List.length_cons, length_pairEvens r]
    omega

theorem length_pairOdds : ∀ x : List ℚ, (pairOdds x).length = x.length / 2
  | [] => rfl
  | [_] => by simp [pairOdds]
  | _ :: _ :: r => by
    simp only [pairOdds, List.length_cons, length_pairOdds r]
    omega

theorem length_interleavePairs (x : List ℚ) :
    (interleavePairs x).length = x.length := by
  rw [interleavePairs, List.length_append, length_pairEvens, length_pairOdds]
  omega

theorem rotate_half_append (u v : List ℚ) (h : u.length = v.length) :
    rotate_half (u ++ v) = v.map (fun a => -a) ++ u := by
  have hlen : (u ++ v).length / 2 = u.length := by
    rw [List.length_append]
    omega
  rw [rotate_half, hlen, List.drop_left, List.take_left]

theorem rotEmbed_append (c s u v : List ℚ) (hc : c.length = u.length)
    (hs : s.length = u.length) (hv : v.length = u.length) :
    rotEmbed (c ++ c) (s ++ s) (u ++ v) =
      List.zipWith (· + ·) (List.zipWith (· * ·) u c)
          (List.zipWith (· * ·) (v.map (fun a => -a)) s)
        ++ List.zipWith (· + ·) (List.zipWith (· * ·) v c)
          (List.zipWith (· * ·) u s) := by
  rw [rotEmbed, rotate_half_append u v hv.symm,
    List.zipWith_append (· * ·) u v c c hc.symm,
    List.zipWith_append (· * ·) (v.map fun a => -a) u s s
      (by rw [List.length_map]; exact hv.trans hs.symm),
    List.zipWith_append (· + ·) _ _ _ _
      (by rw [List.length_zipWith, List.length_zipWith, List.length_map]; omega)]

theorem rot_quad_fst : ∀ (c s u v : List ℚ), s.length = c.length → u.length = c.length →
    v.length = c.length → (∀ p ∈ c.zip s, p.1 * p.1 + p.2 * p.2 = 1) →
    List.zipWith (· + ·)
      (List.zipWith (· * ·)
        (List.zipWith (· + ·) (List.zipWith (· * ·) u c)
          (List.zipWith (· * ·) (v.map (fun a => -a)) s)) c)
      (List.zipWith (· * ·)
        ((List.zipWith (· + ·) (List.zipWith (· * ·) v c)
          (List.zipWith (· * ·) u s)).map (fun a => -a))
        (s.map (fun a => -a)))
    = u := by
  intro c
  induction c with
  | nil =>
    intro s u v hs hu hv _
    rw [List.length_eq_zero.mp hs, List.length_eq_zero.mp hu, List.length_eq_zero.mp hv]
    rfl
  | cons c0 cr ih =>
    intro s u v hs hu hv hcirc
    cases s with
    | nil => simp at hs
    | cons s0 sr =>
    cases u with
    | nil => simp at hu
    | cons u0 ur =>
    cases v with
    | nil => simp at hv
    | cons v0 vr =>
    simp only [List.map_cons, List.zipWith_cons_cons]
    congr 1
    · have hc0 := hcirc (c0, s0) (by rw [List.zip_cons_cons]; exact List.mem_cons_self _ _)
      simp only at hc0
      linear_combination u0 * hc0
    · refine ih sr ur vr ?_ ?_ ?_ ?_
      · simpa using hs
      · simpa using hu
      · simpa using hv
      · intro p hp
        exact hcirc p (by rw [List.zip_cons_cons]; exact List.mem_cons_of_mem _ hp)

theorem rot_quad_snd : ∀ (c s u v : List ℚ), s.length = c.length → u.length = c.length →
    v.length = c.length → (∀ p ∈ c.zip s, p.1 * p.1 + p.2 * p.2 = 1) →
    List.zipWith (· + ·)
      (List.zipWith (· * ·)
        (List.zipWith (· + ·) (List.zipWith (· * ·) v c)
          (List.zipWith (· * ·) u s)) c)
      (List.zipWith (· * ·)
        (List.zipWith (· + ·) (List.zipWith (· * ·) u c)
          (List.zipWith (· * ·) (v.map (fun a => -a)) s))
        (s.map (fun a => -a)))
    = v := by
  intro c
  induction c with
  | nil =>
    intro s u v hs hu hv _
    rw [List.length_eq_zero.mp hs, List.length_eq_zero.mp hu, List.length_eq_zero.mp hv]
    rfl
  | cons c0 cr ih =>
    intro s u v hs hu hv hcirc
    cases s with
    | nil => simp at hs
    | cons s0 sr =>
    cases u with
    | nil => simp at hu
    | cons u0 ur =>
    cases v with
    | nil => simp at hv
    | cons v0 vr =>
    simp only [List.map_cons, List.zipWith_cons_cons]
    congr 1
    · have hc0 := hcirc (c0, s0) (by rw [List.zip_cons_cons]; exact List.mem_cons_self _ _)
      simp only at hc0
      linear_combination v0 * hc0
    · refine ih sr ur vr ?_ ?_ ?_ ?_
      · simpa using hs
      · simpa using hu
      · simpa using hv
      · intro p hp
        exact hcirc p (by rw [List.zip_cons_cons]; exact List.mem_cons_of_mem _ hp)

/-- The rotate-half rotation stage is undone by rotating with the negated sine table,
provided the table halves are duplicated and each (cos, sin) pair lies on the unit
circle. -/
theorem rotEmbed_roundtrip (c s x : List ℚ) (hs : s.length = c.length)
    (hx : x.length = 2 * c.length)
    (hcirc : ∀ p ∈ c.zip s, p.1 * p.1 + p.2 * p.2 = 1) :
    rotEmbed (c ++ c) ((s ++ s).map (fun a => -a)) (rotEmbed (c ++ c) (s ++ s) x) = x := by
  obtain ⟨u, v, rfl, hu, hv⟩ :
      ∃ u v, x = u ++ v ∧ u.length = c.length ∧ v.length = c.length := by
    refine ⟨x.take c.length, x.drop c.length, (List.take_append_drop _ _).symm, ?_, ?_⟩
    · rw [List.length_take]; omega
    · rw [List.length_drop]; omega
  rw [List.map_append,
    rotEmbed_append c s u v hu.symm (hs.trans hu.symm) (hv.trans hu.symm)]
  rw [rotEmbed_append c (s.map fun a => -a) _ _
    (by simp only [List.length_zipWith, List.length_map]; omega)
    (by simp only [List.length_zipWith, List.length_map]; omega)
    (by simp only [List.length_zipWith, List.length_map]; omega)]
  rw [rot_quad_fst c s u v hs hu hv hcirc, rot_quad_snd c s u v hs hu hv hcirc]

/-! ## Gate support lemmas -/

theorem gateScores_length (sigm : ℚ → ℚ) (weight : List (List ℚ)) (hidden : List ℚ) :
    (gateScores sigm weight hidden).length = weight.length := by
  simp [gateScores, gateLogits]

theorem scoresForChoice_length (sigm : ℚ → ℚ) (weight : List (List ℚ))
    (bias hidden : List ℚ) (hb : bias.length = weight.length) :
    (scoresForChoice sigm weight bias hidden).length = weight.length := by
  simp [scoresForChoice, gateScores, gateLogits, hb]

theorem gateMaskedScores_length (sigm : ℚ → ℚ) (weight : List (List ℚ))
    (bias hidden : List ℚ) (cfg : GateConfig) :
    (gateMaskedScores sigm weight bias hidden cfg).length = cfg.n_routed_experts := by
  simp [gateMaskedScores, maskedScores]

theorem maskedScores_getD (sfc : List ℚ) (G : List ℕ) (gs E e : ℕ) (he : e < E) :
    (maskedScores sfc G gs E).getD e 0 = if e / gs ∈ G then sfc.getD e 0 else 0 := by
  have h1 : e < ((List.range E).map
      (fun e => if e / gs ∈ G then sfc.getD e 0 else 0)).length := by
    simpa using he
  rw [maskedScores, List.getD_eq_getElem _ _ h1, List.getElem_map]
  simp only [List.getElem_range]

/-- The experts whose group lies in a duplicate-free list `G` of groups form
`G.length * gs` many positions of `range (nG * gs)`. -/
theorem card_filter_div_mem (G : List ℕ) (nG gs : ℕ) (hgs : 0 < gs) (hnd : G.Nodup)
    (hGlt : ∀ g ∈ G, g < nG) :
    ((Finset.range (nG * gs)).filter (fun e => e / gs ∈ G)).card = G.length * gs := by
  have hbij : (Finset.range (nG * gs)).filter (fun e => e / gs ∈ G)
      = G.toFinset.biUnion (fun g =>
          (Finset.range gs).map ⟨fun r => g * gs + r, fun a b hab => by exact Nat.add_left_cancel hab⟩) := by
    ext e
    simp only [Finset.mem_filter, Finset.mem_range, Finset.mem_biUnion, Finset.mem_map,
      List.mem_toFinset, Function.Embedding.coeFn_mk]
    constructor
    · rintro ⟨_, hmem⟩
      refine ⟨e / gs, hmem, e % gs, Nat.mod_lt _ hgs, ?_⟩
      rw [mul_comm]
      exact Nat.div_add_mod e gs
    · rintro ⟨g, hgG, r, hrlt, rfl⟩
      have hglt := hGlt g hgG
      have hdiv : (g * gs + r) / gs = g := by
        rw [mul_comm, Nat.mul_add_div hgs, Nat.div_eq_of_lt hrlt, Nat.add_zero]
      constructor
      · calc g * gs + r < g * gs + gs := by omega
          _ = (g + 1) * gs := by ring
          _ ≤ nG * gs := Nat.mul_le_mul_right _ (by omega)
      · rw [hdiv]
        exact hgG
  have hdisj : ∀ x ∈ G.toFinset, ∀ y ∈ G.toFinset, x ≠ y →
      Disjoint ((Finset.range gs).map ⟨fun r => x * gs + r, fun a b hab => by exact Nat.add_left_cancel hab⟩)
        ((Finset.range gs).map ⟨fun r => y * gs + r, fun a b hab => by exact Nat.add_left_cancel hab⟩) := by
    intro x _ y _ hxy
    rw [Finset.disjoint_left]
    rintro e he1 he2
    simp only [Finset.mem_map, Finset.mem_range, Function.Embedding.coeFn_mk] at he1 he2
    obtain ⟨r1, hr1, rfl⟩ := he1
    obtain ⟨r2, hr2, heq⟩ := he2
    have hd1 : (x * gs + r1) / gs = x := by
      rw [mul_comm, Nat.mul_add_div hgs, Nat.div_eq_of_lt hr1, Nat.add_zero]
    have hd2 : (y * gs + r2) / gs = y := by
      rw [mul_comm, Nat.mul_add_div hgs, Nat.div_eq_of_lt hr2, Nat.add_zero]
    rw [← heq] at hd1
    rw [hd2] at hd1
    exact hxy hd1.symm
  rw [hbij, Finset.card_biUnion hdisj]
  have hcards : ∀ g ∈ G.toFinset,
      ((Finset.range gs).map ⟨fun r => g * gs + r, fun a b hab => by exact Nat.add_left_cancel hab⟩).card = gs := by
    intro g _
    rw [Finset.card_map, Finset.card_range]
  rw [Finset.sum_congr rfl hcards, Finset.sum_const, List.toFinset_card_of_nodup hnd,
    smul_eq_mul]

theorem sum_map_mul_const (l : List ℚ) (b : ℚ) :
    (l.map (fun x => x * b)).sum = l.sum * b := by
  induction l with
  | nil => simp
  | cons x xs ih => simp [ih, add_mul]

theorem sum_map_div_const (l : List ℚ) (a : ℚ) :
    (l.map (fun x => x / a)).sum = l.sum / a := by
  induction l with
  | nil => simp
  | cons x xs ih => simp [ih, add_div]

/-! ## Claim theorems for the gate -/

/-- C1 (amended): the gate returns exactly `top_k` distinct expert indices, and when
every expert of a selected group has a strictly positive bias-adjusted score, all of
them lie in groups chosen by the group-affinity stage. (Without the positivity
hypothesis an expert outside the selected groups can win a top-k slot, because its
masked score 0.0 exceeds a negative in-group score; see the counterexample.) -/
theorem gate_topk_distinct_within_selected_groups
    (sigm : ℚ → ℚ) (weight : List (List ℚ)) (bias hidden : List ℚ) (cfg : GateConfig)
    (hgs : 0 < groupSize cfg)
    (hdiv : cfg.n_group * groupSize cfg = cfg.n_routed_experts)
    (hkg : cfg.topk_group ≤ cfg.n_group)
    (hk : cfg.top_k ≤ cfg.topk_group * groupSize cfg)
    (hpos : ∀ e, e < cfg.n_routed_experts →
      e / groupSize cfg ∈ gateGroupIdx sigm weight bias hidden cfg →
      0 < (scoresForChoice sigm weight bias hidden).getD e 0) :
    (gateTopkIndices sigm weight bias hidden cfg).length = cfg.top_k
    ∧ (gateTopkIndices sigm weight bias hidden cfg).Nodup
    ∧ ∀ e ∈ gateTopkIndices sigm weight bias hidden cfg,
        e < cfg.n_routed_experts
        ∧ e / groupSize cfg ∈ gateGroupIdx sigm weight bias hidden cfg := by
  have hmlen := gateMaskedScores_length sigm weight bias hidden cfg
  have htopE : cfg.top_k ≤ cfg.n_routed_experts := by
    calc cfg.top_k ≤ cfg.topk_group * groupSize cfg := hk
      _ ≤ cfg.n_group * groupSize cfg := Nat.mul_le_mul_right _ hkg
      _ = cfg.n_routed_experts := hdiv
  have hGnd : (gateGroupIdx sigm weight bias hidden cfg).Nodup := topkIdx_nodup _ _
  have hGSlen : (groupScores (scoresForChoice sigm weight bias hidden) cfg.n_group
      (groupSize cfg)).length = cfg.n_group := by
    simp [groupScores]
  have hGlt : ∀ g ∈ gateGroupIdx sigm weight bias hidden cfg, g < cfg.n_group := by
    intro g hg
    have := topkIdx_mem_lt _ _ hg
    rwa [hGSlen] at this
  have hGlen : (gateGroupIdx sigm weight bias hidden cfg).length = cfg.topk_group := by
    refine topkIdx_length _ _ ?_
    rw [hGSlen]
    exact hkg
  -- every in-group position holds a strictly positive masked score
  have hcard : cfg.top_k ≤ ((Finset.range
      (gateMaskedScores sigm weight bias hidden cfg).length).filter
        (fun j => 0 < (gateMaskedScores sigm weight bias hidden cfg).getD j 0)).card := by
    have hsub : (Finset.range (cfg.n_group * groupSize cfg)).filter
        (fun e => e / groupSize cfg ∈ gateGroupIdx sigm weight bias hidden cfg)
        ⊆ (Finset.range (gateMaskedScores sigm weight bias hidden cfg).length).filter
          (fun j => 0 < (gateMaskedScores sigm weight bias hidden cfg).getD j 0) := by
      intro e he
      have he2 := Finset.mem_filter.mp he
      have heE : e < cfg.n_routed_experts := by
        have := Finset.mem_range.mp he2.1
        omega
      refine Finset.mem_filter.mpr ⟨Finset.mem_range.mpr (by rw [hmlen]; exact heE), ?_⟩
      have hget : (gateMaskedScores sigm weight bias hidden cfg).getD e 0
          = (scoresForChoice sigm weight bias hidden).getD e 0 := by
        rw [gateMaskedScores, maskedScores_getD _ _ _ _ _ heE, if_pos he2.2]
      rw [hget]
      exact hpos e heE he2.2
    calc cfg.top_k ≤ cfg.topk_group * groupSize cfg := hk
      _ = (gateGroupIdx sigm weight bias hidden cfg).length * groupSize cfg := by
          rw [hGlen]
      _ = ((Finset.range (cfg.n_group * groupSize cfg)).filter
            (fun e => e / groupSize cfg ∈ gateGroupIdx sigm weight bias hidden cfg)).card :=
          (card_filter_div_mem _ _ _ hgs hGnd hGlt).symm
      _ ≤ _ := Finset.card_le_card hsub
  refine ⟨topkIdx_length _ _ (by rw [hmlen]; exact htopE), topkIdx_nodup _ _, ?_⟩
  intro e he
  have heE : e < cfg.n_routed_experts := by
    have := topkIdx_mem_lt _ _ he
    rwa [hmlen] at this
  have hposmask := topkIdx_pos _ _ hcard e he
  refine ⟨heE, ?_⟩
  by_contra hout
  rw [gateMaskedScores, maskedScores_getD _ _ _ _ _ heE, if_neg hout] at hposmask
  exact lt_irrefl 0 hposmask

/-- C3: the returned weights are gathered from the original sigmoid scores at the
selected indices; the correction bias influences which experts are selected but never
the numeric value of any returned weight. -/
theorem gate_weights_gathered_from_original_scores
    (sigm : ℚ → ℚ) (weight : List (List ℚ)) (bias1 bias2 hidden : List ℚ)
    (cfg : GateConfig)
    (hsel : gateTopkIndices sigm weight bias1 hidden cfg
      = gateTopkIndices sigm weight bias2 hidden cfg) :
    MoEGate_forward sigm weight bias1 hidden cfg
      = MoEGate_forward sigm weight bias2 hidden cfg
    ∧ (∀ j, j < (gateTopkIndices sigm weight bias1 hidden cfg).length →
        (rawTopkWeights sigm weight bias1 hidden cfg).getD j 0
          = (gateScores sigm weight hidden).getD
              ((gateTopkIndices sigm weight bias1 hidden cfg).getD j 0) 0)
    ∧ (∀ j, j < (gateTopkIndices sigm weight bias1 hidden cfg).length →
        (MoEGate_forward sigm weight bias1 hidden cfg).2.getD j 0
          = (if cfg.norm_topk_prob
              then (gateScores sigm weight hidden).getD
                  ((gateTopkIndices sigm weight bias1 hidden cfg).getD j 0) 0
                / ((rawTopkWeights sigm weight bias1 hidden cfg).sum + moeGateEps)
              else (gateScores sigm weight hidden).getD
                  ((gateTopkIndices sigm weight bias1 hidden cfg).getD j 0) 0)
            * cfg.routed_scaling_factor) := by
  have hraw : ∀ j, j < (gateTopkIndices sigm weight bias1 hidden cfg).length →
      (rawTopkWeights sigm weight bias1 hidden cfg).getD j 0
        = (gateScores sigm weight hidden).getD
            ((gateTopkIndices sigm weight bias1 hidden cfg).getD j 0) 0 := by
    intro j hj
    have hj2 : j < (rawTopkWeights sigm weight bias1 hidden cfg).length := by
      simpa [rawTopkWeights] using hj
    rw [rawTopkWeights, List.getD_eq_getElem _ _ (by simpa [rawTopkWeights] using hj2),
      List.getElem_map, List.getD_eq_getElem _ _ hj]
  refine ⟨?_, hraw, ?_⟩
  · simp only [MoEGate_forward, rawTopkWeights, hsel]
  · intro j hj
    have hlenraw : (rawTopkWeights sigm weight bias1 hidden cfg).length
        = (gateTopkIndices sigm weight bias1 hidden cfg).length := by
      simp [rawTopkWeights]
    rw [MoEGate_forward]
    rcases hnorm : cfg.norm_topk_prob with _ | _
    · simp only [hnorm, Bool.false_eq_true, if_false]
      have hj3 : j < ((rawTopkWeights sigm weight bias1 hidden cfg).map
          (fun x => x * cfg.routed_scaling_factor)).length := by
        rw [List.length_map, hlenraw]
        exact hj
      rw [List.getD_eq_getElem _ _ hj3, List.getElem_map,
        ← List.getD_eq_getElem _ 0 (by rw [hlenraw]; exact hj), hraw j hj]
    · simp only [hnorm, if_true]
      have hj3 : j < (((rawTopkWeights sigm weight bias1 hidden cfg).map
          (fun x => x / ((rawTopkWeights sigm weight bias1 hidden cfg).sum + moeGateEps))).map
          (fun x => x * cfg.routed_scaling_factor)).length := by
        rw [List.length_map, List.length_map, hlenraw]
        exact hj
      rw [List.getD_eq_getElem _ _ hj3, List.getElem_map, List.getElem_map,
        ← List.getD_eq_getElem _ 0 (by rw [hlenraw]; exact hj), hraw j hj]

/-- C4: with normalization on, the sum of the returned weights times the normalizing
denominator equals `routed_scaling_factor` times the sum `S` of the raw sigmoid scores
at the selected indices (so the sum equals `routed_scaling_factor · S / (S + 1e-20)`);
with normalization off it equals `routed_scaling_factor` times that raw sum. -/
theorem gate_weight_sum (sigm : ℚ → ℚ) (weight : List (List ℚ)) (bias hidden : List ℚ)
    (cfg : GateConfig) (hW : weight.length = cfg.n_routed_experts)
    (hk0 : 0 < cfg.top_k) (hkE : cfg.top_k ≤ cfg.n_routed_experts)
    (hsig : ∀ x, 0 < sigm x) :
    (cfg.norm_topk_prob = true →
      ((MoEGate_forward sigm weight bias hidden cfg).2).sum
          * ((rawTopkWeights sigm weight bias hidden cfg).sum + moeGateEps)
        = cfg.routed_scaling_factor * (rawTopkWeights sigm weight bias hidden cfg).sum)
    ∧ (cfg.norm_topk_prob = false →
      ((MoEGate_forward sigm weight bias hidden cfg).2).sum
        = cfg.routed_scaling_factor * (rawTopkWeights sigm weight bias hidden cfg).sum) := by
  have hmlen := gateMaskedScores_length sigm weight bias hidden cfg
  have hpos : ∀ x ∈ rawTopkWeights sigm weight bias hidden cfg, 0 < x := by
    intro x hx
    obtain ⟨i, hi, rfl⟩ := List.mem_map.mp hx
    have hiE : i < cfg.n_routed_experts := by
      have := topkIdx_mem_lt _ _ hi
      rwa [hmlen] at this
    have hilen : i < (gateScores sigm weight hidden).length := by
      rw [gateScores_length, hW]
      exact hiE
    rw [List.getD_eq_getElem _ _ hilen]
    simp only [gateScores, List.getElem_map]
    exact hsig _
  have hne : rawTopkWeights sigm weight bias hidden cfg ≠ [] := by
    have hlen : (rawTopkWeights sigm weight bias hidden cfg).length = cfg.top_k := by
      rw [rawTopkWeights, List.length_map]
      exact topkIdx_length _ _ (by rw [hmlen]; exact hkE)
    intro hnil
    rw [hnil] at hlen
    simp at hlen
    omega
  have hSpos : 0 < (rawTopkWeights sigm weight bias hidden cfg).sum :=
    List.sum_pos _ hpos hne
  have hepos : (0:ℚ) < moeGateEps := by norm_num [moeGateEps]
  have hDne : (rawTopkWeights sigm weight bias hidden cfg).sum + moeGateEps ≠ 0 := by
    linarith
  constructor
  · intro hnorm
    rw [MoEGate_forward]
    simp only [hnorm, if_true]
    rw [sum_map_mul_const, sum_map_div_const, div_mul_eq_mul_div, div_mul_cancel₀ _ hDne]
    ring
  · intro hnorm
    rw [MoEGate_forward]
    simp only [hnorm, Bool.false_eq_true, if_false]
    rw [sum_map_mul_const]
    ring

/-! ## Claim theorems for the dispatch engine -/

/-- C2: per token, the MoE forward output equals the weighted sum over the token's
top-k slots of the assigned routed expert applied to that token, plus the shared
expert applied to the original hidden state; and the scatter after the per-expert loop
restores the pre-sort (token, slot) order: flat entry `i` of the reordered outputs is
the expert assigned at flat position `i` applied to token `i / top_k`. -/
theorem moe_forward_combines (experts : ℕ → V → V) (shared : V → V) (E k : ℕ)
    (tokens : List V) (idx : List (List ℕ)) (w : List (List ℚ)) (hk : 0 < k)
    (hTok : tokens.length = idx.length) (hRows : ∀ r ∈ idx, r.length = k)
    (hnd : ∀ r ∈ idx, r.Nodup) (hB : ∀ i ∈ idx.flatten, i < E) :
    (∀ t, t < idx.length →
      (DeepseekV3MoE_forward experts shared E k tokens idx w).getD t 0
        = (∑ s ∈ Finset.range k,
            (w.getD t []).getD s 0 • experts ((idx.getD t []).getD s 0) (tokens.getD t 0))
          + shared (tokens.getD t 0))
    ∧ (∀ i, i < idx.flatten.length →
      (reorderedOutputs experts E k tokens idx).getD i 0
        = experts (idx.flatten.getD i 0) (tokens.getD (i / k) 0)) := by
  refine ⟨?_, reorderedOutputs_apply experts E k tokens idx hnd hB⟩
  intro t ht
  have hlen1 : (moe_infer experts E k tokens idx w).length = idx.length := by
    simp [moe_infer]
  have hlen2 : (tokens.map shared).length = idx.length := by
    rw [List.length_map, hTok]
  have hlenz : t < (List.zipWith (· + ·) (moe_infer experts E k tokens idx w)
      (tokens.map shared)).length := by
    rw [List.length_zipWith, hlen1, hlen2]
    omega
  rw [DeepseekV3MoE_forward, List.getD_eq_getElem _ _ hlenz, List.getElem_zipWith]
  have ht1 : t < (moe_infer experts E k tokens idx w).length := by
    rw [hlen1]; exact ht
  rw [← List.getD_eq_getElem (moe_infer experts E k tokens idx w) 0 ht1,
    moe_infer_apply experts E k tokens idx w hk hRows hnd hB t ht]
  congr 1
  rw [List.getElem_map]
  congr 1
  exact (List.getD_eq_getElem tokens 0 (by rw [hTok]; exact ht)).symm

/-- C6: the dispatch output is unchanged by adding experts that are assigned zero
tokens (extending the expert range past every assigned index), and an expert with an
empty assignment performs no work: replacing its transform by anything leaves the
output unchanged. -/
theorem moe_infer_zero_token_expert_invariant (experts : ℕ → V → V) (E Eb k : ℕ)
    (tokens : List V) (idx : List (List ℕ)) (w : List (List ℚ))
    (hnd : ∀ r ∈ idx, r.Nodup) (hB : ∀ i ∈ idx.flatten, i < E) (hEE : E ≤ Eb) :
    moe_infer experts Eb k tokens idx w = moe_infer experts E k tokens idx w
    ∧ ∀ e0 (f : V → V), tokensPerExpert idx e0 = 0 →
        moe_infer (Function.update experts e0 f) E k tokens idx w
          = moe_infer experts E k tokens idx w := by
  have hBb : ∀ i ∈ idx.flatten, i < Eb := fun i hi => lt_of_lt_of_le (hB i hi) hEE
  constructor
  · have hcat : expertOutputs experts Eb k tokens idx
        = expertOutputs experts E k tokens idx := by
      rw [expertOutputs_eq experts Eb k tokens idx hnd hBb,
        expertOutputs_eq experts E k tokens idx hnd hB]
    simp only [moe_infer, reorderedOutputs, hcat]
  · intro e0 f h0
    have hnm : e0 ∉ idx.flatten := by
      intro hmem
      obtain ⟨r, hr, hmr⟩ := List.mem_flatten.mp hmem
      have := List.countP_eq_zero.mp h0 r hr
      simp [hmr] at this
    have hcat : expertOutputs (Function.update experts e0 f) E k tokens idx
        = expertOutputs experts E k tokens idx := by
      rw [expertOutputs_eq _ E k tokens idx hnd hB,
        expertOutputs_eq experts E k tokens idx hnd hB]
      refine List.map_congr_left ?_
      intro i hiL
      have hin : i < idx.flatten.length :=
        List.mem_range.mp ((argsortKeys_perm idx.flatten).mem_iff.mp hiL)
      have hkey : idx.flatten.getD i 0 ∈ idx.flatten := by
        rw [List.getD_eq_getElem _ _ hin]
        exact List.getElem_mem _
      have hne : idx.flatten.getD i 0 ≠ e0 := fun heq => hnm (heq ▸ hkey)
      rw [Function.update_noteq hne]
    simp only [moe_infer, reorderedOutputs, hcat]

/-! ## Claim theorem for the rotary applier -/

/-- C5 (amended): the rotate-half rotation stage applied with angle θ is undone by the
rotation stage with angle −θ (same cosine table, negated sine table), but
`apply_rotary_pos_emb` re-applies the pair-interleave on every call, so its round trip
recovers the *pair-interleaved* input rather than the input itself: undoing only the
rotation of the applier output yields `interleavePairs q` and `interleavePairs k`. -/
theorem apply_rotary_pos_emb_roundtrip (c s q k : List ℚ)
    (hq : q.length = 2 * c.length) (hkk : k.length = 2 * c.length)
    (hs : s.length = c.length)
    (hcirc : ∀ p ∈ c.zip s, p.1 * p.1 + p.2 * p.2 = 1) :
    rotEmbed (c ++ c) ((s ++ s).map (fun a => -a))
        ((apply_rotary_pos_emb q k (c ++ c) (s ++ s)).1) = interleavePairs q
    ∧ rotEmbed (c ++ c) ((s ++ s).map (fun a => -a))
        ((apply_rotary_pos_emb q k (c ++ c) (s ++ s)).2) = interleavePairs k := by
  constructor
  · exact rotEmbed_roundtrip c s (interleavePairs q) hs
      (by rw [length_interleavePairs]; exact hq) hcirc
  · exact rotEmbed_roundtrip c s (interleavePairs k) hs
      (by rw [length_interleavePairs]; exact hkk) hcirc

/-! ## Claim theorems for the attention assembly -/

/-- C7: the content (nope) slices of the assembled query and key states are exactly
the projection outputs, unchanged by the rotary application; only the rope channels
hold the rotated values. -/
theorem attn_nope_slices_unchanged (cos sin q kv ckv : List ℚ)
    (nope rope kvLora vdim : ℕ) (hq : q.length = nope + rope)
    (hkv : kv.length = nope + vdim) :
    (query_states cos sin q (ckv.drop kvLora) nope).take nope = q.take nope
    ∧ (query_states cos sin q (ckv.drop kvLora) nope).drop nope
        = (apply_rotary_pos_emb (q.drop nope) (ckv.drop kvLora) cos sin).1
    ∧ (key_states cos sin q kv ckv nope kvLora).take nope = kv.take nope
    ∧ (key_states cos sin q kv ckv nope kvLora).drop nope
        = (apply_rotary_pos_emb (q.drop nope) (ckv.drop kvLora) cos sin).2 := by
  have hqlen : (q.take nope).length = nope := by
    rw [List.length_take]
    omega
  have hkvlen : (kv.take nope).length = nope := by
    rw [List.length_take]
    omega
  refine ⟨?_, ?_, ?_, ?_⟩
  · rw [query_states, List.take_left' hqlen]
  · rw [query_states, List.drop_left' hqlen]
  · rw [key_states, List.take_left' hkvlen]
  · rw [key_states, List.drop_left' hkvlen]

/-- C10: the rotated positional key slice is identical across attention heads: the
rope channels of the assembled key states do not depend on the head index, because
`k_pe` is computed once from the shared compressed projection and broadcast. -/
theorem rope_slice_shared_across_heads (cos sin ckv : List ℚ) (q kv : ℕ → List ℚ)
    (nope kvLora vdim : ℕ) (hkv : ∀ hd, (kv hd).length = nope + vdim) :
    ∀ h1 h2 : ℕ,
      (key_states cos sin (q h1) (kv h1) ckv nope kvLora).drop nope
        = (key_states cos sin (q h2) (kv h2) ckv nope kvLora).drop nope := by
  intro h1 h2
  have hl1 : ((kv h1).take nope).length = nope := by
    rw [List.length_take, hkv h1]
    omega
  have hl2 : ((kv h2).take nope).length = nope := by
    rw [List.length_take, hkv h2]
    omega
  rw [key_states, key_states, List.drop_left' hl1, List.drop_left' hl2]
  rfl

/-- C9: on the padded-value path, truncating the kernel output back to `v_head_dim`
yields exactly the kernel output over the unpadded value rows, with last-dimension
width exactly `v_head_dim`: no padding column leaks into the final output. -/
theorem attn_padding_truncated (p : ℕ → ℚ) (values : List (List ℚ)) (vdim qdim : ℕ)
    (hv : ∀ v ∈ values, v.length = vdim) (hle : vdim ≤ qdim) :
    truncate_attn_output (attnCombineRow p
        (values.map (fun v => pad_value_states v qdim)) qdim) vdim
      = attnCombineRow p values vdim
    ∧ (truncate_attn_output (attnCombineRow p
        (values.map (fun v => pad_value_states v qdim)) qdim) vdim).length = vdim := by
  have hmain : truncate_attn_output (attnCombineRow p
      (values.map (fun v => pad_value_states v qdim)) qdim) vdim
      = attnCombineRow p values vdim := by
    rw [truncate_attn_output, attnCombineRow, attnCombineRow, ← List.map_take,
      List.take_range, min_eq_left hle, List.length_map]
    refine List.map_congr_left ?_
    intro cidx hc
    have hcv : cidx < vdim := List.mem_range.mp hc
    refine Finset.sum_congr rfl ?_
    intro j hj
    have hjv : j < values.length := Finset.mem_range.mp hj
    congr 1
    have hjm : j < (values.map (fun v => pad_value_states v qdim)).length := by
      simpa using hjv
    rw [List.getD_eq_getElem _ _ hjm, List.getElem_map, pad_value_states,
      List.getD_append _ _ _ _ (by rw [hv _ (List.getElem_mem hjv)]; exact hcv),
      List.getD_eq_getElem values [] hjv]
  refine ⟨hmain, ?_⟩
  rw [hmain, attnCombineRow, List.length_map, List.length_range]

/-! ## Claim theorem for the attention scaling -/

/-- C8: the attention scaling equals `q_head_dim ^ (-1/2)` when `rope_scaling` is
unset, and is multiplied by `mscale²` when the rotary scaling configuration carries a
nonzero `mscale_all_dim`, where `mscale = 1` if the scale factor is at most 1 and
`0.1 · mscale_all_dim · ln(factor) + 1` otherwise. -/
theorem attention_scaling_formula (qhd : ℕ) :
    attnScaling qhd none = (qhd : ℝ) ^ (-(1 / 2 : ℝ))
    ∧ ∀ (f m : ℚ), m ≠ 0 →
      attnScaling qhd (some ⟨f, some m⟩)
        = (qhd : ℝ) ^ (-(1 / 2 : ℝ))
          * (if f ≤ 1 then (1 : ℝ)
              else 0.1 * (m : ℝ) * Real.log (f : ℝ) + 1) ^ 2 := by
  have hhalf : (-(0.5) : ℝ) = -(1 / 2 : ℝ) := by norm_num
  constructor
  · simp only [attnScaling]
    rw [hhalf]
  · intro f m hm
    simp only [attnScaling, yarn_get_mscale, Option.getD_some]
    rw [if_pos hm, hhalf]
    by_cases hf : f ≤ 1
    · rw [if_pos hf]
      ring
    · rw [if_neg hf]
      ring

/-! ## Counterexamples -/

/-- C1 counterexample: with 4 experts in 2 groups of 2, `topk_group = 1`, `top_k = 2`,
sigmoid scores all 1/2 and correction bias `[10, -10, 0, -100]`, group 0 is selected,
yet expert 2 (which lies in group 1) wins a top-k slot: its masked score `0.0` beats
the negative in-group bias-adjusted score `-19/2` of expert 1. -/
theorem gate_selects_out_of_group_expert :
    2 ∈ gateTopkIndices (fun _ => 1/2) [[0], [0], [0], [0]] [10, -10, 0, -100] [0]
        ⟨4, 2, 1, 2, true, 1⟩
    ∧ 2 / groupSize ⟨4, 2, 1, 2, true, 1⟩
        ∉ gateGroupIdx (fun _ => 1/2) [[0], [0], [0], [0]] [10, -10, 0, -100] [0]
        ⟨4, 2, 1, 2, true, 1⟩ := by
  norm_num [gateTopkIndices, gateMaskedScores, maskedScores, gateGroupIdx, groupScores,
    groupSlice, scoresForChoice, gateScores, gateLogits, dotQ, topkIdx, topkLe,
    groupSize, List.insertionSort, List.orderedInsert, List.range, List.range.loop]

/-- C5 counterexample: at angle θ = π/2 (cos = 0, sin = 1 on every channel), applying
`apply_rotary_pos_emb` with θ and then again with −θ (negated sine table) does not
return the original vector, because the pair-interleave is applied on both calls. -/
theorem apply_rotary_pos_emb_no_plain_roundtrip :
    ((apply_rotary_pos_emb
        (apply_rotary_pos_emb [1, 0, 0, 0] [0, 0, 0, 0] [0, 0, 0, 0] [1, 1, 1, 1]).1
        (apply_rotary_pos_emb [1, 0, 0, 0] [0, 0, 0, 0] [0, 0, 0, 0] [1, 1, 1, 1]).2
        [0, 0, 0, 0] (([1, 1, 1, 1] : List ℚ).map (fun a => -a))).1)
      ≠ [1, 0, 0, 0] := by
  norm_num [apply_rotary_pos_emb, rotEmbed, interleavePairs, pairEvens, pairOdds,
    rotate_half]

/-! ## Witnesses -/

theorem gate_topk_distinct_within_selected_groups_witness :
    (0 < groupSize ⟨4, 2, 1, 2, true, 1⟩)
    ∧ ((⟨4, 2, 1, 2, true, 1⟩ : GateConfig).n_group * groupSize ⟨4, 2, 1, 2, true, 1⟩
        = (⟨4, 2, 1, 2, true, 1⟩ : GateConfig).n_routed_experts)
    ∧ (gateTopkIndices (fun _ => (1:ℚ)/2) [[0], [0], [0], [0]] [0, 0, 0, 0] [0]
        ⟨4, 2, 1, 2, true, 1⟩).length = (⟨4, 2, 1, 2, true, 1⟩ : GateConfig).top_k := by
  refine ⟨by norm_num [groupSize], by norm_num [groupSize], ?_⟩
  exact (gate_topk_distinct_within_selected_groups (fun _ => (1:ℚ)/2)
    [[0], [0], [0], [0]] [0, 0, 0, 0] [0] ⟨4, 2, 1, 2, true, 1⟩
    (by norm_num [groupSize]) (by norm_num [groupSize]) (by norm_num)
    (by norm_num [groupSize])
    (by
      intro e he hg
      have he4 : e < 4 := he
      interval_cases e <;>
        norm_num [scoresForChoice, gateScores, gateLogits, dotQ])).1

theorem gate_weights_gathered_from_original_scores_witness :
    gateTopkIndices (fun _ => (1:ℚ)/2) [[0], [0]] [0, 0] [0] ⟨2, 1, 1, 1, true, 1⟩
      = gateTopkIndices (fun _ => (1:ℚ)/2) [[0], [0]] [1, 1] [0] ⟨2, 1, 1, 1, true, 1⟩
    ∧ MoEGate_forward (fun _ => (1:ℚ)/2) [[0], [0]] [0, 0] [0] ⟨2, 1, 1, 1, true, 1⟩
      = MoEGate_forward (fun _ => (1:ℚ)/2) [[0], [0]] [1, 1] [0] ⟨2, 1, 1, 1, true, 1⟩ := by
  have hsel : gateTopkIndices (fun _ => (1:ℚ)/2) [[0], [0]] [0, 0] [0] ⟨2, 1, 1, 1, true, 1⟩
      = gateTopkIndices (fun _ => (1:ℚ)/2) [[0], [0]] [1, 1] [0] ⟨2, 1, 1, 1, true, 1⟩ := by
    norm_num [gateTopkIndices, gateMaskedScores, maskedScores, gateGroupIdx, groupScores,
      groupSlice, scoresForChoice, gateScores, gateLogits, dotQ, topkIdx, topkLe,
      groupSize, List.insertionSort, List.orderedInsert, List.range, List.range.loop]
  exact ⟨hsel, (gate_weights_gathered_from_original_scores (fun _ => (1:ℚ)/2)
    [[0], [0]] [0, 0] [1, 1] [0] ⟨2, 1, 1, 1, true, 1⟩ hsel).1⟩

theorem gate_weight_sum_witness :
    (([[(0:ℚ)], [0]] : List (List ℚ)).length
        = (⟨2, 1, 1, 1, true, 1⟩ : GateConfig).n_routed_experts)
    ∧ (0 < (⟨2, 1, 1, 1, true, 1⟩ : GateConfig).top_k)
    ∧ ((⟨2, 1, 1, 1, true, 1⟩ : GateConfig).norm_topk_prob = true)
    ∧ ((MoEGate_forward (fun _ => (1:ℚ)/2) [[0], [0]] [0, 0] [0]
          ⟨2, 1, 1, 1, true, 1⟩).2).sum
        * ((rawTopkWeights (fun _ => (1:ℚ)/2) [[0], [0]] [0, 0] [0]
            ⟨2, 1, 1, 1, true, 1⟩).sum + moeGateEps)
      = (⟨2, 1, 1, 1, true, 1⟩ : GateConfig).routed_scaling_factor
        * (rawTopkWeights (fun _ => (1:ℚ)/2) [[0], [0]] [0, 0] [0]
            ⟨2, 1, 1, 1, true, 1⟩).sum := by
  refine ⟨by decide, by decide, rfl, ?_⟩
  exact (gate_weight_sum (fun _ => (1:ℚ)/2) [[0], [0]] [0, 0] [0] ⟨2, 1, 1, 1, true, 1⟩
    (by decide) (by decide) (by decide) (fun x => by norm_num)).1 rfl

theorem moe_forward_combines_witness :
    ((0:ℕ) < 1)
    ∧ ([(0:ℚ)].length = ([[0]] : List (List ℕ)).length)
    ∧ (∀ r ∈ ([[0]] : List (List ℕ)), r.length = 1)
    ∧ (∀ r ∈ ([[0]] : List (List ℕ)), r.Nodup)
    ∧ (∀ i ∈ ([[0]] : List (List ℕ)).flatten, i < 1)
    ∧ (DeepseekV3MoE_forward (fun _ (x : ℚ) => x) (fun x => x) 1 1 [0] [[0]] [[1]]).getD 0 0
        = (∑ s ∈ Finset.range 1,
            (([[(1:ℚ)]] : List (List ℚ)).getD 0 []).getD s 0 •
              (fun _ (x : ℚ) => x) ((([[0]] : List (List ℕ)).getD 0 []).getD s 0)
                (([(0:ℚ)]).getD 0 0))
          + (fun (x : ℚ) => x) (([(0:ℚ)]).getD 0 0) := by
  refine ⟨by decide, by decide, by decide, by decide, by decide, ?_⟩
  exact (moe_forward_combines (fun _ (x : ℚ) => x) (fun x => x) 1 1 [0] [[0]] [[1]]
    (by decide) (by decide) (by decide) (by decide) (by decide)).1 0 (by decide)

theorem moe_infer_zero_token_expert_invariant_witness :
    (∀ r ∈ ([[0]] : List (List ℕ)), r.Nodup)
    ∧ (∀ i ∈ ([[0]] : List (List ℕ)).flatten, i < 1)
    ∧ ((1:ℕ) ≤ 2)
    ∧ moe_infer (fun _ (x : ℚ) => x) 2 1 [0] [[0]] [[1]]
        = moe_infer (fun _ (x : ℚ) => x) 1 1 [0] [[0]] [[1]] := by
  refine ⟨by decide, by decide, by decide, ?_⟩
  exact (moe_infer_zero_token_expert_invariant (fun _ (x : ℚ) => x) 1 2 1 [0] [[0]] [[1]]
    (by decide) (by decide) (by decide)).1

theorem apply_rotary_pos_emb_roundtrip_witness :
    (([(1:ℚ), 2]).length = 2 * ([(3:ℚ)/5]).length)
    ∧ (∀ p ∈ ([(3:ℚ)/5]).zip [(4:ℚ)/5], p.1 * p.1 + p.2 * p.2 = 1)
    ∧ rotEmbed ([(3:ℚ)/5] ++ [(3:ℚ)/5]) ((([(4:ℚ)/5] ++ [(4:ℚ)/5])).map (fun a => -a))
        ((apply_rotary_pos_emb [1, 2] [0, 0] ([(3:ℚ)/5] ++ [(3:ℚ)/5])
          ([(4:ℚ)/5] ++ [(4:ℚ)/5])).1) = interleavePairs [1, 2] := by
  have hcirc : ∀ p ∈ ([(3:ℚ)/5]).zip [(4:ℚ)/5], p.1 * p.1 + p.2 * p.2 = 1 := by
    intro p hp
    simp only [List.zip_cons_cons, List.zip_nil_left, List.mem_singleton] at hp
    subst hp
    norm_num
  refine ⟨by decide, hcirc, ?_⟩
  exact (apply_rotary_pos_emb_roundtrip [(3:ℚ)/5] [(4:ℚ)/5] [1, 2] [0, 0]
    (by decide) (by decide) rfl hcirc).1

theorem attn_nope_slices_unchanged_witness :
    (([(1:ℚ), 2]).length = 1 + 1)
    ∧ (([(3:ℚ), 4]).length = 1 + 1)
    ∧ (query_states [0] [1] [1, 2] (([(5:ℚ), 6]).drop 1) 1).take 1 = ([(1:ℚ), 2]).take 1 := by
  refine ⟨by decide, by decide, ?_⟩
  exact (attn_nope_slices_unchanged [0] [1] [1, 2] [3, 4] [5, 6] 1 1 1 1
    (by decide) (by decide)).1

theorem rope_slice_shared_across_heads_witness :
    (∀ _hd : ℕ, (([(3:ℚ), 4]) : List ℚ).length = 1 + 1)
    ∧ (key_states [0] [1] [1, 2] [3, 4] [5, 6] 1 1).drop 1
        = (key_states [0] [1] [1, 2] [3, 4] [5, 6] 1 1).drop 1 := by
  refine ⟨fun _ => by decide, ?_⟩
  exact rope_slice_shared_across_heads [0] [1] [5, 6] (fun _ => [1, 2]) (fun _ => [3, 4])
    1 1 1 (fun _ => (by decide : (([(3:ℚ), 4]) : List ℚ).length = 1 + 1)) 0 1

theorem attn_padding_truncated_witness :
    (∀ v ∈ ([[(2:ℚ)]] : List (List ℚ)), v.length = 1)
    ∧ ((1:ℕ) ≤ 2)
    ∧ (truncate_attn_output (attnCombineRow (fun _ => (1:ℚ))
        (([[(2:ℚ)]] : List (List ℚ)).map (fun v => pad_value_states v 2)) 2) 1).length = 1 := by
  refine ⟨by decide, by decide, ?_⟩
  exact (attn_padding_truncated (fun _ => (1:ℚ)) [[2]] 1 2 (by decide) (by decide)).2

theorem attention_scaling_formula_witness :
    attnScaling 192 none = (192 : ℝ) ^ (-(1 / 2 : ℝ))
    ∧ attnScaling 192 (some ⟨4, some 1⟩)
      = (192 : ℝ) ^ (-(1 / 2 : ℝ))
        * (if (4:ℚ) ≤ 1 then (1 : ℝ)
            else 0.1 * ((1:ℚ) : ℝ) * Real.log ((4:ℚ) : ℝ) + 1) ^ 2 :=
  ⟨(attention_scaling_formula 192).1,
    (attention_scaling_formula 192).2 4 1 (by norm_num)⟩

end DeepseekV3
